import Mathlib

/-
Verification of the CodeBook repository: a generic point-update segment tree
(sum instance, identity 0) and a disjoint-set-union structure.

Embedding conventions:
- C++ `int` values and bounds are modelled as `Int`; C++ integer division
  (truncation toward zero) is `Int.tdiv`.
- The tree storage `std::vector<T> t` is modelled as a total map `Nat → Int`;
  the separate access-list functions (`buildNodes`, `queryNodes`,
  `updateNodes`) record exactly the slot indices each operation touches, and
  the 4N bound is proved about them.
- Recursive member functions are modelled with an explicit fuel parameter
  returning `Option`; `none` means the recursion did not terminate within the
  given fuel.  Sufficiency of the fixed fuel used by the public wrappers is
  proved for all valid inputs.
- The conceptual array is a `List Int`; `a[i]` is `a.getD i 0` (in-bounds
  accesses are established separately, so the default never matters).
-/

/-- Function update at a single point, used to model single-slot vector
assignment `t[v] = x`. -/
def updf {α : Type} (t : Nat → α) (v : Nat) (x : α) : Nat → α :=
  fun w => if w = v then x else t w

/-- Identity element of the merge operation (0 for sum), the field
`IDENTITY` of struct SegTree. -/
def SegTree.IDENTITY : Int := 0

/-- The merge operation of the segment tree; the source instantiates it with
addition (`return a + b`). -/
def SegTree.merge (a b : Int) : Int := a + b

/-- Split-point computation `int tm = tl + (tr - tl) / 2` shared by `build`,
`query_recursive` and `update_recursive` (C++ `/` on int truncates toward
zero, which is `Int.tdiv`). -/
def SegTree.tmOf (tl tr : Int) : Int := tl + (tr - tl).tdiv 2

/-- State of a SegTree object: the field `n` and the tree storage `t`. -/
structure SegTree where
  n : Int
  t : Nat → Int

/-- Model of `void build(const vector<int>& a, int v, int tl, int tr)`.
Returns the updated tree storage, or `none` when the fuel runs out (the C++
recursion did not terminate within that depth). -/
def SegTree.build (a : List Int) : Nat → Nat → Int → Int → (Nat → Int) → Option (Nat → Int)
  | 0, _, _, _, _ => none
  | fuel + 1, v, tl, tr, t =>
    if tl = tr then
      some (updf t v (a.getD tl.toNat 0))
    else
      let tm := SegTree.tmOf tl tr
      match SegTree.build a fuel (v * 2) tl tm t with
      | none => none
      | some t1 =>
        match SegTree.build a fuel (v * 2 + 1) (tm + 1) tr t1 with
        | none => none
        | some t2 => some (updf t2 v (SegTree.merge (t2 (v * 2)) (t2 (v * 2 + 1))))

/-- Default SegTree value, used only to extract concrete states from
`Option` results in closed statements. -/
def dfltSeg : SegTree := ⟨0, fun _ => 0⟩

/-- Model of the constructor `SegTree(const vector<int>& a)`:
`n = a.size(); t.resize(4*n); build(a, 1, 0, n-1);`.  Fuel `a.length`
suffices for every `N ≥ 1` (proved below); for `N = 0` the C++ recursion
never terminates, which the fuel-indexed `build` reflects. -/
def SegTree.ofVec (a : List Int) : Option SegTree :=
  match SegTree.build a a.length 1 0 ((a.length : Int) - 1) (fun _ => 0) with
  | none => none
  | some t => some ⟨(a.length : Int), t⟩

/-- Model of `T query_recursive(int v, int tl, int tr, int l, int r)`. -/
def SegTree.query_recursive (t : Nat → Int) : Nat → Nat → Int → Int → Int → Int → Option Int
  | 0, _, _, _, _, _ => none
  | fuel + 1, v, tl, tr, l, r =>
    if l > r then
      some SegTree.IDENTITY
    else if l = tl ∧ r = tr then
      some (t v)
    else
      let tm := SegTree.tmOf tl tr
      match SegTree.query_recursive t fuel (v * 2) tl tm l (min r tm) with
      | none => none
      | some left_res =>
        match SegTree.query_recursive t fuel (v * 2 + 1) (tm + 1) tr (max l (tm + 1)) r with
        | none => none
        | some right_res => some (SegTree.merge left_res right_res)

/-- Model of `void update_recursive(int v, int tl, int tr, int pos, T new_val)`. -/
def SegTree.update_recursive (t : Nat → Int) : Nat → Nat → Int → Int → Int → Int → Option (Nat → Int)
  | 0, _, _, _, _, _ => none
  | fuel + 1, v, tl, tr, pos, new_val =>
    if tl = tr then
      some (updf t v new_val)
    else
      let tm := SegTree.tmOf tl tr
      if pos ≤ tm then
        match SegTree.update_recursive t fuel (v * 2) tl tm pos new_val with
        | none => none
        | some t1 => some (updf t1 v (SegTree.merge (t1 (v * 2)) (t1 (v * 2 + 1))))
      else
        match SegTree.update_recursive t fuel (v * 2 + 1) (tm + 1) tr pos new_val with
        | none => none
        | some t1 => some (updf t1 v (SegTree.merge (t1 (v * 2)) (t1 (v * 2 + 1))))

/-- Model of `T query(int l, int r) { return query_recursive(1, 0, n-1, l, r); }`.
The fuel `n.toNat + 1` is sufficient for all arguments (proved below). -/
def SegTree.query (st : SegTree) (l r : Int) : Option Int :=
  SegTree.query_recursive st.t (st.n.toNat + 1) 1 0 (st.n - 1) l r

/-- Model of `void update(int pos, T new_val)`; returns the new object state. -/
def SegTree.update (st : SegTree) (pos new_val : Int) : Option SegTree :=
  match SegTree.update_recursive st.t (st.n.toNat + 1) 1 0 (st.n - 1) pos new_val with
  | none => none
  | some t1 => some ⟨st.n, t1⟩

/-- The member call `query` in state-passing form: the C++ method receives the
object and returns a value together with the (unmodified, since the body of
`query_recursive` contains no assignment) object state. -/
def SegTree.queryOp (st : SegTree) (l r : Int) : Option (Int × SegTree) :=
  match st.query l r with
  | none => none
  | some x => some (x, st)

/-- Run a sequence of point updates `(pos, new_val)` through the tree. -/
def SegTree.applyUpdates : SegTree → List (Int × Int) → Option SegTree
  | st, [] => some st
  | st, u :: us =>
    match st.update u.1 u.2 with
    | none => none
    | some st1 => st1.applyUpdates us

/-- Conceptual-array point assignment `a[pos] = x` (with an int position). -/
def setA (a : List Int) (pos : Int) (x : Int) : List Int := a.set pos.toNat x

/-- Conceptual-array effect of a sequence of point updates. -/
def applyList (a : List Int) (us : List (Int × Int)) : List Int :=
  us.foldl (fun b u => setA b u.1 u.2) a

/-- Left-to-right fold of `merge`, starting from the identity, over the
conceptual array elements `l..r` (empty when `l > r`). -/
def rangeFold (a : List Int) (l r : Int) : Int :=
  ((a.drop l.toNat).take (r + 1 - l).toNat).foldl SegTree.merge SegTree.IDENTITY

/-- Slot indices (reads and writes into `t`) touched by `build v tl tr`:
the leaf case writes `t[v]`; the internal case recurses into both children
and then reads `t[v*2]`, `t[v*2+1]` and writes `t[v]`. -/
def SegTree.buildNodes : Nat → Nat → Int → Int → List Nat
  | 0, _, _, _ => []
  | fuel + 1, v, tl, tr =>
    if tl = tr then [v]
    else
      let tm := SegTree.tmOf tl tr
      SegTree.buildNodes fuel (v * 2) tl tm ++
        SegTree.buildNodes fuel (v * 2 + 1) (tm + 1) tr ++ [v * 2, v * 2 + 1, v]

/-- Slot indices touched by `query_recursive v tl tr l r`: nothing on an
empty range, `t[v]` on an exact match, otherwise the two recursive calls. -/
def SegTree.queryNodes : Nat → Nat → Int → Int → Int → Int → List Nat
  | 0, _, _, _, _, _ => []
  | fuel + 1, v, tl, tr, l, r =>
    if l > r then []
    else if l = tl ∧ r = tr then [v]
    else
      let tm := SegTree.tmOf tl tr
      SegTree.queryNodes fuel (v * 2) tl tm l (min r tm) ++
        SegTree.queryNodes fuel (v * 2 + 1) (tm + 1) tr (max l (tm + 1)) r

/-- Slot indices touched by `update_recursive v tl tr pos _`: the leaf write
`t[v]`, or the chosen child plus the re-merge reads and write. -/
def SegTree.updateNodes : Nat → Nat → Int → Int → Int → List Nat
  | 0, _, _, _, _ => []
  | fuel + 1, v, tl, tr, pos =>
    if tl = tr then [v]
    else
      let tm := SegTree.tmOf tl tr
      (if pos ≤ tm then SegTree.updateNodes fuel (v * 2) tl tm pos
       else SegTree.updateNodes fuel (v * 2 + 1) (tm + 1) tr pos) ++ [v * 2, v * 2 + 1, v]

/-- Membership of slot `w` in the (infinite, implicit) subtree rooted at
slot `v` of the 1-based binary layout: some chain of parent steps
(division by 2) from `w` reaches `v`. -/
def inSub (v w : Nat) : Prop := ∃ k, w / 2 ^ k = v

/-- Representation invariant of the subtree rooted at node `v` covering
`[tl, tr]`: every internal node stores the merge of its two children (via the
fixed split point `tmOf`), and every leaf stores the corresponding element of
the conceptual array `a`. -/
def SubInv (a : List Int) (t : Nat → Int) (v : Nat) (tl tr : Int) : Prop :=
  if h : tl < tr then
    t v = SegTree.merge (t (v * 2)) (t (v * 2 + 1)) ∧
      SubInv a t (v * 2) tl (SegTree.tmOf tl tr) ∧
      SubInv a t (v * 2 + 1) (SegTree.tmOf tl tr + 1) tr
  else
    t v = a.getD tl.toNat 0
termination_by (tr - tl).toNat
decreasing_by
  · have hd : (tr - tl).tdiv 2 = (((tr - tl).toNat / 2 : Nat) : Int) := by
      have h0 : tr - tl = ((tr - tl).toNat : Int) := by omega
      conv_lhs => rw [h0]
      rfl
    simp only [SegTree.tmOf]
    omega
  · have hd : (tr - tl).tdiv 2 = (((tr - tl).toNat / 2 : Nat) : Int) := by
      have h0 : tr - tl = ((tr - tl).toNat : Int) := by omega
      conv_lhs => rw [h0]
      rfl
    simp only [SegTree.tmOf]
    omega

/-- A SegTree state represents the conceptual array `a`: the stored size
matches, the array is nonempty, and the tree invariant holds at the root. -/
def SegTree.models (st : SegTree) (a : List Int) : Prop :=
  st.n = (a.length : Int) ∧ 1 ≤ st.n ∧ SubInv a st.t 1 0 (st.n - 1)

/-- The node/range triples reachable by the fixed recursive subdivision of a
tree over `[0, n-1]`. -/
inductive ValidNode (n : Int) : Nat → Int → Int → Prop
  | root : ValidNode n 1 0 (n - 1)
  | left {v : Nat} {tl tr : Int} :
      ValidNode n v tl tr → tl < tr → ValidNode n (v * 2) tl (SegTree.tmOf tl tr)
  | right {v : Nat} {tl tr : Int} :
      ValidNode n v tl tr → tl < tr → ValidNode n (v * 2 + 1) (SegTree.tmOf tl tr + 1) tr

/-- Depth-indexed size invariant of a node of the subdivision of `[0, nn-1]`:
at depth `d` the slot index is below `2^(d+1)`, the range extent shrinks
geometrically, and depth `d ≥ 1` is only reachable when `2^(d-1) ≤ nn - 1`. -/
def NodeOK (nn : Nat) (d : Nat) (v : Nat) (tl tr : Int) : Prop :=
  1 ≤ v ∧ v < 2 ^ (d + 1) ∧ (tr - tl).toNat * 2 ^ d ≤ nn - 1 ∧
    (d = 0 → v = 1) ∧ (1 ≤ d → 2 ^ (d - 1) ≤ nn - 1)

/-- Largest value of the C++ type `int` (32-bit two's complement). -/
def INT_MAX : Int := 2 ^ 31 - 1

/-- A value is representable in the C++ type `int`. -/
def intRepresentable (x : Int) : Prop := -(2 ^ 31) ≤ x ∧ x ≤ INT_MAX

/-- State of a DSU object: the `parent` and `sz` vectors, modelled as total
maps (all accesses are at indices below the element count, per the
documented contract). -/
structure DSU where
  parent : Nat → Nat
  sz : Nat → Int

/-- Model of the constructor `DSU(int n)`: `parent` is the identity
(`std::iota`) and every set has size 1. -/
def DSU.make (_n : Nat) : DSU := ⟨fun v => v, fun _ => 1⟩

/-- Model of `int find_set(int v)` with path compression:
`return parent[v] = find_set(parent[v]);`.  Returns the representative and
the compressed state; `none` when the fuel is insufficient. -/
def DSU.find_set : Nat → DSU → Nat → Option (Nat × DSU)
  | 0, _, _ => none
  | fuel + 1, s, v =>
    if v = s.parent v then some (v, s)
    else
      match DSU.find_set fuel s (s.parent v) with
      | none => none
      | some (r, s1) => some (r, { s1 with parent := updf s1.parent v r })

/-- Model of `void union_sets(int a, int b)` with union by size: find both
roots, and if distinct attach the smaller tree below the larger. -/
def DSU.union_sets (fuel : Nat) (s : DSU) (a b : Nat) : Option DSU :=
  match DSU.find_set fuel s a with
  | none => none
  | some (ra, s1) =>
    match DSU.find_set fuel s1 b with
    | none => none
    | some (rb, s2) =>
      if ra ≠ rb then
        if s2.sz ra < s2.sz rb then
          some { s2 with parent := updf s2.parent ra rb,
                         sz := updf s2.sz rb (s2.sz rb + s2.sz ra) }
        else
          some { s2 with parent := updf s2.parent rb ra,
                         sz := updf s2.sz ra (s2.sz ra + s2.sz rb) }
      else some s2

/-- Pure root computation along the parent chain, without path compression
(used as the specification of representatives). -/
def DSU.proot (p : Nat → Nat) : Nat → Nat → Option Nat
  | 0, _ => none
  | fuel + 1, v => if v = p v then some v else DSU.proot p fuel (p v)

/-- Element `v` has representative `r` in parent structure `p`. -/
def DSU.Rooted (p : Nat → Nat) (v r : Nat) : Prop :=
  ∃ fuel, DSU.proot p fuel v = some r

/-- Elements `x` and `y` lie in the same set of the partition. -/
def DSU.SameSet (p : Nat → Nat) (x y : Nat) : Prop :=
  ∃ ρ, DSU.Rooted p x ρ ∧ DSU.Rooted p y ρ

/-! Arithmetic facts about the split point. -/

lemma tdiv_two_eq (tl tr : Int) (h : tl ≤ tr) :
    (tr - tl).tdiv 2 = (((tr - tl).toNat / 2 : Nat) : Int) := by
  have h0 : tr - tl = ((tr - tl).toNat : Int) := by omega
  conv_lhs => rw [h0]
  rfl

lemma tmOf_bounds {tl tr : Int} (h : tl < tr) :
    tl ≤ SegTree.tmOf tl tr ∧ SegTree.tmOf tl tr < tr := by
  have hd := tdiv_two_eq tl tr (le_of_lt h)
  simp only [SegTree.tmOf]
  omega

lemma tmOf_measure_left {tl tr : Int} (h : tl < tr) :
    (SegTree.tmOf tl tr - tl).toNat < (tr - tl).toNat := by
  have hd := tdiv_two_eq tl tr (le_of_lt h)
  simp only [SegTree.tmOf]
  omega

lemma tmOf_measure_right {tl tr : Int} (h : tl < tr) :
    (tr - (SegTree.tmOf tl tr + 1)).toNat < (tr - tl).toNat := by
  have hd := tdiv_two_eq tl tr (le_of_lt h)
  simp only [SegTree.tmOf]
  omega

/-! Unfolding lemmas for the representation invariant. -/

lemma subInv_leaf {a : List Int} {t : Nat → Int} {v : Nat} {tl tr : Int} (h : ¬ tl < tr) :
    SubInv a t v tl tr ↔ t v = a.getD tl.toNat 0 := by
  rw [SubInv]
  simp [h]

lemma subInv_node {a : List Int} {t : Nat → Int} {v : Nat} {tl tr : Int} (h : tl < tr) :
    SubInv a t v tl tr ↔
      (t v = SegTree.merge (t (v * 2)) (t (v * 2 + 1)) ∧
        SubInv a t (v * 2) tl (SegTree.tmOf tl tr) ∧
        SubInv a t (v * 2 + 1) (SegTree.tmOf tl tr + 1) tr) := by
  rw [SubInv]
  simp [h]

/-! Facts about the fold of merge over array ranges. -/

lemma foldl_merge_eq (xs : List Int) (c : Int) :
    xs.foldl SegTree.merge c = c + xs.sum := by
  induction xs generalizing c with
  | nil => simp
  | cons y ys ih =>
    simp only [List.foldl_cons, List.sum_cons, ih, SegTree.merge]
    ring

lemma rangeFold_eq_sum (a : List Int) (l r : Int) :
    rangeFold a l r = ((a.drop l.toNat).take (r + 1 - l).toNat).sum := by
  simp [rangeFold, foldl_merge_eq, SegTree.IDENTITY]

lemma rangeFold_empty (a : List Int) {l r : Int} (h : r < l) : rangeFold a l r = 0 := by
  rw [rangeFold_eq_sum]
  have : (r + 1 - l).toNat = 0 := by omega
  simp [this]

lemma sum_take_one_drop (a : List Int) (i : Nat) :
    ((a.drop i).take 1).sum = a.getD i 0 := by
  induction a generalizing i with
  | nil => simp [List.getD]
  | cons y ys ih =>
    cases i with
    | zero => simp [List.getD]
    | succ j => simpa [List.getD] using ih j

lemma rangeFold_single (a : List Int) {l : Int} (h0 : 0 ≤ l) :
    rangeFold a l l = a.getD l.toNat 0 := by
  rw [rangeFold_eq_sum]
  have : (l + 1 - l).toNat = 1 := by omega
  rw [this, sum_take_one_drop]

lemma rangeFold_split (a : List Int) {l m r : Int}
    (h0 : 0 ≤ l) (h1 : l ≤ m + 1) (h2 : m ≤ r) :
    rangeFold a l r = rangeFold a l m + rangeFold a (m + 1) r := by
  rw [rangeFold_eq_sum, rangeFold_eq_sum, rangeFold_eq_sum]
  have hk : (r + 1 - l).toNat = (m + 1 - l).toNat + (r - m).toNat := by omega
  rw [hk, List.take_add, List.sum_append, List.drop_drop,
    show l.toNat + (m + 1 - l).toNat = (m + 1).toNat from by omega,
    show (r + 1 - (m + 1)).toNat = (r - m).toNat from by omega]

/-! Facts about subtree membership of slot indices. -/

lemma inSub_self (v : Nat) : inSub v v := ⟨0, by simp⟩

lemma inSub_stepL {v w : Nat} (h : inSub (v * 2) w) : inSub v w := by
  obtain ⟨k, hk⟩ := h
  refine ⟨k + 1, ?_⟩
  rw [pow_succ, ← Nat.div_div_eq_div_mul, hk]
  omega

lemma inSub_stepR {v w : Nat} (h : inSub (v * 2 + 1) w) : inSub v w := by
  obtain ⟨k, hk⟩ := h
  refine ⟨k + 1, ?_⟩
  rw [pow_succ, ← Nat.div_div_eq_div_mul, hk]
  omega

lemma inSub_le {v w : Nat} (h : inSub v w) : v ≤ w := by
  obtain ⟨k, hk⟩ := h
  calc v = w / 2 ^ k := hk.symm
  _ ≤ w := Nat.div_le_self w (2 ^ k)

lemma not_inSub_left_parent {v : Nat} (hv : 1 ≤ v) : ¬ inSub (v * 2) v := by
  intro h
  have := inSub_le h
  omega

lemma not_inSub_right_parent (v : Nat) : ¬ inSub (v * 2 + 1) v := by
  intro h
  have := inSub_le h
  omega

lemma inSub_chain {v w : Nat} {k m : Nat} (hk : w / 2 ^ k = v) :
    w / 2 ^ (k + m) = v / 2 ^ m := by
  rw [pow_add, ← Nat.div_div_eq_div_mul, hk]

lemma inSub_sibling_disjoint {v w : Nat} (hv : 1 ≤ v)
    (hL : inSub (v * 2) w) (hR : inSub (v * 2 + 1) w) : False := by
  obtain ⟨k, hk⟩ := hL
  obtain ⟨j, hj⟩ := hR
  rcases Nat.le_total k j with hle | hle
  · obtain ⟨m, rfl⟩ := Nat.exists_eq_add_of_le hle
    rw [inSub_chain hk] at hj
    rcases Nat.eq_zero_or_pos m with hm | hm
    · subst hm; simp at hj
    · have h2 : (2 : Nat) ≤ 2 ^ m := by
        calc (2 : Nat) = 2 ^ 1 := by norm_num
        _ ≤ 2 ^ m := Nat.pow_le_pow_right (by norm_num) hm
      have hle2 : v * 2 / 2 ^ m ≤ v * 2 / 2 := Nat.div_le_div_left h2 (by norm_num)
      omega
  · obtain ⟨m, rfl⟩ := Nat.exists_eq_add_of_le hle
    rw [inSub_chain hj] at hk
    rcases Nat.eq_zero_or_pos m with hm | hm
    · subst hm; simp at hk
    · have h2 : (2 : Nat) ≤ 2 ^ m := by
        calc (2 : Nat) = 2 ^ 1 := by norm_num
        _ ≤ 2 ^ m := Nat.pow_le_pow_right (by norm_num) hm
      have hle2 : (v * 2 + 1) / 2 ^ m ≤ (v * 2 + 1) / 2 := Nat.div_le_div_left h2 (by norm_num)
      omega

/-- The representation invariant of a subtree only depends on the slots of
that subtree. -/
lemma subInv_congr : ∀ (D : Nat) {a : List Int} {t1 t2 : Nat → Int} {v : Nat} {tl tr : Int},
    (tr - tl).toNat < D → (∀ w, inSub v w → t1 w = t2 w) →
    SubInv a t1 v tl tr → SubInv a t2 v tl tr := by
  intro D
  induction D with
  | zero => intro a t1 t2 v tl tr h; omega
  | succ D ih =>
    intro a t1 t2 v tl tr hm hw hs
    by_cases h : tl < tr
    · rw [subInv_node h] at hs ⊢
      obtain ⟨hv, hL, hR⟩ := hs
      refine ⟨?_, ?_, ?_⟩
      · rw [← hw v (inSub_self v), ← hw (v * 2) (inSub_stepL (inSub_self _)),
          ← hw (v * 2 + 1) (inSub_stepR (inSub_self _))]
        exact hv
      · exact ih (by have := tmOf_measure_left h; omega)
          (fun w hw' => hw w (inSub_stepL hw')) hL
      · exact ih (by have := tmOf_measure_right h; omega)
          (fun w hw' => hw w (inSub_stepR hw')) hR
    · rw [subInv_leaf h] at hs ⊢
      rw [← hw v (inSub_self v)]
      exact hs

/-- The function `build` succeeds given fuel exceeding the range extent, establishes the
representation invariant on the subtree it fills, and writes no slot outside
that subtree. -/
lemma build_ok (a : List Int) : ∀ (fuel : Nat) (v : Nat) (tl tr : Int) (t : Nat → Int),
    1 ≤ v → 0 ≤ tl → tl ≤ tr → (tr - tl).toNat < fuel →
    ∃ t2, SegTree.build a fuel v tl tr t = some t2 ∧ SubInv a t2 v tl tr ∧
      ∀ w, ¬ inSub v w → t2 w = t w := by
  intro fuel
  induction fuel with
  | zero => intro v tl tr t hv h0 h1 hm; omega
  | succ fuel ih =>
    intro v tl tr t hv h0 h1 hm
    by_cases h : tl = tr
    · refine ⟨updf t v (a.getD tl.toNat 0), ?_, ?_, ?_⟩
      · simp [SegTree.build, h]
      · rw [subInv_leaf (by omega)]
        simp [updf]
      · intro w hw
        have hne : w ≠ v := fun he => hw (he ▸ inSub_self v)
        simp [updf, hne]
    · have hlt : tl < tr := lt_of_le_of_ne h1 h
      have htm := tmOf_bounds hlt
      obtain ⟨t1, he1, hs1, hf1⟩ :=
        ih (v * 2) tl (SegTree.tmOf tl tr) t (by omega) h0 htm.1
          (by have := tmOf_measure_left hlt; omega)
      obtain ⟨t2, he2, hs2, hf2⟩ :=
        ih (v * 2 + 1) (SegTree.tmOf tl tr + 1) tr t1 (by omega)
          (by omega) (by omega) (by have := tmOf_measure_right hlt; omega)
      have hne1 : v * 2 ≠ v := by omega
      have hne2 : v * 2 + 1 ≠ v := by omega
      refine ⟨updf t2 v (SegTree.merge (t2 (v * 2)) (t2 (v * 2 + 1))), ?_, ?_, ?_⟩
      · simp [SegTree.build, h, he1, he2]
      · rw [subInv_node hlt]
        refine ⟨?_, ?_, ?_⟩
        · simp [updf, hne1, hne2]
        · refine subInv_congr ((SegTree.tmOf tl tr - tl).toNat + 1) (by omega) ?_ hs1
          intro w hw
          have hwv : w ≠ v := fun he =>
            not_inSub_left_parent hv (he ▸ hw)
          have hw2 : ¬ inSub (v * 2 + 1) w := fun hr => inSub_sibling_disjoint hv hw hr
          simp [updf, hwv, hf2 w hw2]
        · refine subInv_congr ((tr - (SegTree.tmOf tl tr + 1)).toNat + 1) (by omega) ?_ hs2
          intro w hw
          have hwv : w ≠ v := fun he => not_inSub_right_parent v (he ▸ hw)
          simp [updf, hwv]
      · intro w hw
        have hwv : w ≠ v := fun he => hw (he ▸ inSub_self v)
        have hwL : ¬ inSub (v * 2) w := fun hc => hw (inSub_stepL hc)
        have hwR : ¬ inSub (v * 2 + 1) w := fun hc => hw (inSub_stepR hc)
        simp [updf, hwv, hf2 w hwR, hf1 w hwL]

/-- Under the representation invariant, every node stores the fold of merge
over its range of the conceptual array. -/
lemma subInv_node_val (a : List Int) : ∀ (D : Nat) {t : Nat → Int} {v : Nat} {tl tr : Int},
    (tr - tl).toNat < D → 0 ≤ tl → tl ≤ tr → SubInv a t v tl tr →
    t v = rangeFold a tl tr := by
  intro D
  induction D with
  | zero => intro t v tl tr hm; omega
  | succ D ih =>
    intro t v tl tr hm h0 h1 hs
    by_cases h : tl < tr
    · rw [subInv_node h] at hs
      obtain ⟨hv, hL, hR⟩ := hs
      have htm := tmOf_bounds h
      have e1 := ih (by have := tmOf_measure_left h; omega) h0 htm.1 hL
      have e2 := ih (by have := tmOf_measure_right h; omega) (by omega) (by omega) hR
      rw [hv, e1, e2]
      simp only [SegTree.merge]
      exact (rangeFold_split a h0 (by omega) (by omega)).symm
    · have heq : tl = tr := by omega
      subst heq
      rw [subInv_leaf h] at hs
      rw [hs, rangeFold_single a h0]

lemma getD_set_ne (x : Int) {i j : Nat} (a : List Int) (h : i ≠ j) :
    (a.set i x).getD j 0 = a.getD j 0 := by
  simp [List.getD, List.getElem?_set_ne h]

lemma getD_set_self (x : Int) {i : Nat} (a : List Int) (h : i < a.length) :
    (a.set i x).getD i 0 = x := by
  simp [List.getD, List.getElem?_set_self, h]

/-- The representation invariant of a subtree is unaffected by a conceptual
write at a position outside the range of the subtree. -/
lemma subInv_setA : ∀ (D : Nat) {a : List Int} {t : Nat → Int} {v : Nat} {tl tr pos : Int} {x : Int},
    (tr - tl).toNat < D → 0 ≤ tl → tl ≤ tr → 0 ≤ pos → (pos < tl ∨ tr < pos) →
    SubInv a t v tl tr → SubInv (setA a pos x) t v tl tr := by
  intro D
  induction D with
  | zero => intro a t v tl tr pos x hm; omega
  | succ D ih =>
    intro a t v tl tr pos x hm h0 h1 hp hout hs
    by_cases h : tl < tr
    · rw [subInv_node h] at hs ⊢
      obtain ⟨hv, hL, hR⟩ := hs
      have htm := tmOf_bounds h
      refine ⟨hv, ?_, ?_⟩
      · exact ih (by have := tmOf_measure_left h; omega) h0 htm.1 hp (by omega) hL
      · exact ih (by have := tmOf_measure_right h; omega) (by omega) (by omega) hp (by omega) hR
    · rw [subInv_leaf h] at hs ⊢
      rw [hs, setA]
      exact (getD_set_ne x a (by omega)).symm

/-- The function `query_recursive` succeeds given fuel exceeding the range extent and
returns the fold of merge over the (clamped) query range. -/
lemma query_ok (a : List Int) : ∀ (fuel : Nat) {v : Nat} {tl tr l r : Int} {t : Nat → Int},
    0 ≤ tl → tl ≤ tr → (tr - tl).toNat < fuel → SubInv a t v tl tr →
    (r < l ∨ (tl ≤ l ∧ l ≤ r ∧ r ≤ tr)) →
    SegTree.query_recursive t fuel v tl tr l r = some (rangeFold a l r) := by
  intro fuel
  induction fuel with
  | zero => intro v tl tr l r t h0 h1 hm; omega
  | succ fuel ih =>
    intro v tl tr l r t h0 h1 hm hs hd
    rcases hd with hd | hd
    · rw [rangeFold_empty a hd]
      simp [SegTree.query_recursive, hd, SegTree.IDENTITY]
    · obtain ⟨hdl, hdlr, hdr⟩ := hd
      by_cases hexact : l = tl ∧ r = tr
      · obtain ⟨rfl, rfl⟩ := hexact
        have hval := subInv_node_val a (fuel + 1) hm h0 h1 hs
        have hng : ¬ r < l := by omega
        simp [SegTree.query_recursive, hng, hval]
      · have hlt : tl < tr := by
          rcases lt_or_eq_of_le h1 with hlt | heq
          · exact hlt
          · exact absurd ⟨by omega, by omega⟩ hexact
        have htm := tmOf_bounds hlt
        rw [subInv_node hlt] at hs
        obtain ⟨hv, hL, hR⟩ := hs
        have he1 : SegTree.query_recursive t fuel (v * 2) tl (SegTree.tmOf tl tr) l
            (min r (SegTree.tmOf tl tr)) = some (rangeFold a l (min r (SegTree.tmOf tl tr))) := by
          refine ih h0 htm.1 (by have := tmOf_measure_left hlt; omega) hL ?_
          by_cases hc : min r (SegTree.tmOf tl tr) < l
          · exact Or.inl hc
          · exact Or.inr ⟨hdl, by omega, min_le_right _ _⟩
        have he2 : SegTree.query_recursive t fuel (v * 2 + 1) (SegTree.tmOf tl tr + 1) tr
            (max l (SegTree.tmOf tl tr + 1)) r
            = some (rangeFold a (max l (SegTree.tmOf tl tr + 1)) r) := by
          refine ih (by omega) (by omega) (by have := tmOf_measure_right hlt; omega) hR ?_
          by_cases hc : r < max l (SegTree.tmOf tl tr + 1)
          · exact Or.inl hc
          · exact Or.inr ⟨le_max_right _ _, by omega, hdr⟩
        simp only [SegTree.query_recursive, if_neg (by omega : ¬ l > r), if_neg hexact, he1, he2]
        by_cases hc1 : r ≤ SegTree.tmOf tl tr
        · rw [min_eq_left hc1, max_eq_right (by omega : l ≤ SegTree.tmOf tl tr + 1),
            rangeFold_empty a (show r < SegTree.tmOf tl tr + 1 by omega)]
          simp [SegTree.merge]
        · by_cases hc2 : SegTree.tmOf tl tr < l
          · rw [min_eq_right (by omega : SegTree.tmOf tl tr ≤ r),
              max_eq_left (by omega : SegTree.tmOf tl tr + 1 ≤ l),
              rangeFold_empty a (show SegTree.tmOf tl tr < l by omega)]
            simp [SegTree.merge]
          · rw [min_eq_right (by omega : SegTree.tmOf tl tr ≤ r),
              max_eq_right (by omega : l ≤ SegTree.tmOf tl tr + 1)]
            simp only [SegTree.merge]
            rw [← rangeFold_split a (by omega) (by omega) (by omega)]

/-- The function `update_recursive` succeeds given fuel exceeding the range extent,
re-establishes the representation invariant with respect to the pointwise
updated conceptual array, and writes no slot outside its subtree. -/
lemma update_ok (a : List Int) : ∀ (fuel : Nat) (v : Nat) (tl tr pos x : Int) {t : Nat → Int},
    1 ≤ v → 0 ≤ tl → tl ≤ pos → pos ≤ tr → tr < (a.length : Int) → (tr - tl).toNat < fuel →
    SubInv a t v tl tr →
    ∃ t1, SegTree.update_recursive t fuel v tl tr pos x = some t1 ∧
      SubInv (setA a pos x) t1 v tl tr ∧ ∀ w, ¬ inSub v w → t1 w = t w := by
  intro fuel
  induction fuel with
  | zero => intro v tl tr pos x t hv h0 h1 h2 hlen hm; omega
  | succ fuel ih =>
    intro v tl tr pos x t hv h0 h1 h2 hlen hm hs
    by_cases h : tl = tr
    · have hpos : pos = tl := by omega
      refine ⟨updf t v x, ?_, ?_, ?_⟩
      · simp [SegTree.update_recursive, h]
      · rw [subInv_leaf (by omega)]
        subst hpos
        rw [setA, getD_set_self x a (by omega)]
        simp [updf]
      · intro w hw
        have hne : w ≠ v := fun he => hw (he ▸ inSub_self v)
        simp [updf, hne]
    · have hlt : tl < tr := by omega
      have htm := tmOf_bounds hlt
      rw [subInv_node hlt] at hs
      obtain ⟨hval, hL, hR⟩ := hs
      have hne1 : v * 2 ≠ v := by omega
      have hne2 : v * 2 + 1 ≠ v := by omega
      by_cases hbr : pos ≤ SegTree.tmOf tl tr
      · obtain ⟨t1, he1, hs1, hf1⟩ :=
          ih (v * 2) tl (SegTree.tmOf tl tr) pos x
            (by omega) h0 h1 hbr (by omega) (by have := tmOf_measure_left hlt; omega) hL
        refine ⟨updf t1 v (SegTree.merge (t1 (v * 2)) (t1 (v * 2 + 1))), ?_, ?_, ?_⟩
        · simp [SegTree.update_recursive, h, hbr, he1]
        · rw [subInv_node hlt]
          refine ⟨by simp [updf, hne1, hne2], ?_, ?_⟩
          · refine subInv_congr ((SegTree.tmOf tl tr - tl).toNat + 1) (by omega) ?_ hs1
            intro w hw
            have hwv : w ≠ v := fun he => not_inSub_left_parent hv (he ▸ hw)
            simp [updf, hwv]
          · have hRs : SubInv (setA a pos x) t (v * 2 + 1) (SegTree.tmOf tl tr + 1) tr :=
              subInv_setA ((tr - (SegTree.tmOf tl tr + 1)).toNat + 1) (by omega) (by omega)
                (by omega) (by omega) (Or.inl (by omega)) hR
            refine subInv_congr ((tr - (SegTree.tmOf tl tr + 1)).toNat + 1) (by omega) ?_ hRs
            intro w hw
            have hwv : w ≠ v := fun he => not_inSub_right_parent v (he ▸ hw)
            have hwL : ¬ inSub (v * 2) w := fun hc => inSub_sibling_disjoint hv hc hw
            simp [updf, hwv, (hf1 w hwL).symm]
        · intro w hw
          have hwv : w ≠ v := fun he => hw (he ▸ inSub_self v)
          have hwL : ¬ inSub (v * 2) w := fun hc => hw (inSub_stepL hc)
          simp [updf, hwv, hf1 w hwL]
      · obtain ⟨t1, he1, hs1, hf1⟩ :=
          ih (v * 2 + 1) (SegTree.tmOf tl tr + 1) tr pos x
            (by omega) (by omega) (by omega) h2 hlen
            (by have := tmOf_measure_right hlt; omega) hR
        refine ⟨updf t1 v (SegTree.merge (t1 (v * 2)) (t1 (v * 2 + 1))), ?_, ?_, ?_⟩
        · simp [SegTree.update_recursive, h, hbr, he1]
        · rw [subInv_node hlt]
          refine ⟨by simp [updf, hne1, hne2], ?_, ?_⟩
          · have hLs : SubInv (setA a pos x) t (v * 2) tl (SegTree.tmOf tl tr) :=
              subInv_setA ((SegTree.tmOf tl tr - tl).toNat + 1) (by omega) h0
                htm.1 (by omega) (Or.inr (by omega)) hL
            refine subInv_congr ((SegTree.tmOf tl tr - tl).toNat + 1) (by omega) ?_ hLs
            intro w hw
            have hwv : w ≠ v := fun he => not_inSub_left_parent hv (he ▸ hw)
            have hwR : ¬ inSub (v * 2 + 1) w := fun hc => inSub_sibling_disjoint hv hw hc
            simp [updf, hwv, (hf1 w hwR).symm]
          · refine subInv_congr ((tr - (SegTree.tmOf tl tr + 1)).toNat + 1) (by omega) ?_ hs1
            intro w hw
            have hwv : w ≠ v := fun he => not_inSub_right_parent v (he ▸ hw)
            simp [updf, hwv]
        · intro w hw
          have hwv : w ≠ v := fun he => hw (he ▸ inSub_self v)
          have hwR : ¬ inSub (v * 2 + 1) w := fun hc => hw (inSub_stepR hc)
          simp [updf, hwv, hf1 w hwR]

/-- Construction from a nonempty vector succeeds and establishes the
representation invariant. -/
lemma models_of_ofVec {a : List Int} (hn : 1 ≤ a.length) {st : SegTree}
    (hmk : SegTree.ofVec a = some st) : st.models a := by
  obtain ⟨t2, he, hs, -⟩ :=
    build_ok a a.length 1 0 ((a.length : Int) - 1)
      (fun _ => 0) (by omega) (by omega) (by omega) (by omega)
  rw [SegTree.ofVec, he] at hmk
  obtain rfl : (⟨(a.length : Int), t2⟩ : SegTree) = st := by
    simpa using hmk
  exact ⟨rfl, by simpa using hn, by simpa using hs⟩

/-- Calling `query` on a valid range of a well-formed tree returns the fold of merge
over that range of the conceptual array. -/
lemma query_models {st : SegTree} {a : List Int} (hm : st.models a) {l r : Int}
    (h0 : 0 ≤ l) (h1 : l ≤ r) (h2 : r ≤ st.n - 1) :
    st.query l r = some (rangeFold a l r) := by
  obtain ⟨hn, hpos, hs⟩ := hm
  exact query_ok a (st.n.toNat + 1) (by omega) (by omega) (by omega) hs
    (Or.inr ⟨by omega, h1, h2⟩)

/-- Calling `update` at a valid position of a well-formed tree succeeds and yields a
tree representing the pointwise-updated conceptual array, with `n` unchanged. -/
lemma update_models {st : SegTree} {a : List Int} (hm : st.models a) {pos x : Int}
    (h0 : 0 ≤ pos) (h1 : pos ≤ st.n - 1) :
    ∃ st1, st.update pos x = some st1 ∧ st1.models (setA a pos x) ∧ st1.n = st.n := by
  obtain ⟨hn, hpos, hs⟩ := hm
  obtain ⟨t1, he, hs1, -⟩ :=
    update_ok a (st.n.toNat + 1) 1 0 (st.n - 1) pos x
      (by omega) (by omega) h0 h1 (by omega) (by omega) hs
  refine ⟨⟨st.n, t1⟩, ?_, ⟨?_, by simpa using hpos, by simpa using hs1⟩, rfl⟩
  · rw [SegTree.update, he]
  · simpa [setA] using hn

/-- A sequence of in-range updates succeeds and tracks the conceptual array. -/
lemma applyUpdates_models {st : SegTree} {a : List Int} (hm : st.models a)
    {us : List (Int × Int)} (hus : ∀ u ∈ us, 0 ≤ u.1 ∧ u.1 ≤ st.n - 1) :
    ∃ st1, st.applyUpdates us = some st1 ∧ st1.models (applyList a us) ∧ st1.n = st.n := by
  induction us generalizing st a with
  | nil => exact ⟨st, rfl, by simpa [applyList] using hm, rfl⟩
  | cons u us ih =>
    obtain ⟨hu0, hu1⟩ := hus u (by simp)
    obtain ⟨st1, he1, hm1, hn1⟩ := update_models hm hu0 hu1
    obtain ⟨st2, he2, hm2, hn2⟩ :=
      ih hm1 (fun w hw => by have := hus w (by simp [hw]); omega)
    refine ⟨st2, ?_, ?_, by omega⟩
    · rw [SegTree.applyUpdates, he1]
      exact he2
    · simpa [applyList] using hm2

/-- Bounds of every reachable node of the fixed subdivision. -/
lemma validNode_bounds {n : Int} (hn : 1 ≤ n) :
    ∀ {v : Nat} {tl tr : Int}, ValidNode n v tl tr →
      1 ≤ v ∧ 0 ≤ tl ∧ tl ≤ tr ∧ tr ≤ n - 1 := by
  intro v tl tr h
  induction h with
  | root => omega
  | left hp hlt ih =>
    have := tmOf_bounds hlt
    omega
  | right hp hlt ih =>
    have := tmOf_bounds hlt
    omega

/-- The representation invariant at the root restricts to every reachable
node of the subdivision. -/
lemma subInv_validNode {a : List Int} {t : Nat → Int} {n : Int} (hn : 1 ≤ n)
    (hs : SubInv a t 1 0 (n - 1)) :
    ∀ {v : Nat} {tl tr : Int}, ValidNode n v tl tr → SubInv a t v tl tr := by
  intro v tl tr h
  induction h with
  | root => exact hs
  | left hp hlt ih => exact ((subInv_node hlt).mp ih).2.1
  | right hp hlt ih => exact ((subInv_node hlt).mp ih).2.2

/-- C1: for every array of length N ≥ 1, after construction and any sequence
of valid point updates, `query(l, r)` with 0 ≤ l ≤ r ≤ N-1 returns the
left-to-right fold of merge over the current conceptual array elements l..r
(in particular, with no updates and l = 0, r = N-1, the fold of the whole
initial array). -/
theorem seg_query_is_fold (a : List Int) (us : List (Int × Int)) (l r : Int)
    (st st1 : SegTree)
    (hn : 1 ≤ a.length)
    (hus : ∀ u ∈ us, 0 ≤ u.1 ∧ u.1 ≤ (a.length : Int) - 1)
    (hmk : SegTree.ofVec a = some st)
    (hap : st.applyUpdates us = some st1)
    (hl : 0 ≤ l) (hlr : l ≤ r) (hr : r ≤ (a.length : Int) - 1) :
    st1.query l r = some (rangeFold (applyList a us) l r) := by
  have hm := models_of_ofVec hn hmk
  have hstn : st.n = (a.length : Int) := hm.1
  obtain ⟨st2, he2, hm2, hn2⟩ := applyUpdates_models hm (by rw [hstn]; exact hus)
  have heq : st2 = st1 := by rw [he2] at hap; exact Option.some.inj hap
  subst heq
  exact query_models hm2 hl hlr (by omega)

/-- Witness for C1: the spec scenario, array [1,2,3,4,5] with sum aggregate;
after update(2,10) the conceptual array is [1,2,10,4,5] and query(1,3)
returns its fold over positions 1..3 (which evaluates to 16). -/
theorem seg_query_is_fold_witness :
    ((SegTree.applyUpdates ((SegTree.ofVec [1, 2, 3, 4, 5]).getD dfltSeg)
        [(2, 10)]).getD dfltSeg).query 1 3 =
      some (rangeFold (applyList [1, 2, 3, 4, 5] [(2, 10)]) 1 3) :=
  seg_query_is_fold [1, 2, 3, 4, 5] [(2, 10)] 1 3
    ((SegTree.ofVec [1, 2, 3, 4, 5]).getD dfltSeg)
    ((SegTree.applyUpdates ((SegTree.ofVec [1, 2, 3, 4, 5]).getD dfltSeg) [(2, 10)]).getD dfltSeg)
    (by decide) (by decide) rfl rfl (by decide) (by decide) (by decide)

/-- C2: after construction and any sequence of valid updates, every node of
the subdivision covering a range [tl, tr] stores the fold of merge over the
current conceptual array elements tl..tr. -/
theorem seg_node_stores_fold (a : List Int) (us : List (Int × Int))
    (st st1 : SegTree) (v : Nat) (tl tr : Int)
    (hn : 1 ≤ a.length)
    (hus : ∀ u ∈ us, 0 ≤ u.1 ∧ u.1 ≤ (a.length : Int) - 1)
    (hmk : SegTree.ofVec a = some st)
    (hap : st.applyUpdates us = some st1)
    (hv : ValidNode st1.n v tl tr) :
    st1.t v = rangeFold (applyList a us) tl tr := by
  have hm := models_of_ofVec hn hmk
  have hstn : st.n = (a.length : Int) := hm.1
  obtain ⟨st2, he2, hm2, hn2⟩ := applyUpdates_models hm (by rw [hstn]; exact hus)
  have heq : st2 = st1 := by rw [he2] at hap; exact Option.some.inj hap
  subst heq
  obtain ⟨hn1, hpos, hs⟩ := hm2
  have hb := validNode_bounds (by omega) hv
  have hsv := subInv_validNode (by omega) hs hv
  exact subInv_node_val (applyList a us) ((tr - tl).toNat + 1) (by omega) hb.2.1 hb.2.2.1 hsv

/-- Witness for C2: for the tree built over [1,2,3] after update(0,5), the
left child of the root (node 2, covering [0,1]) stores the fold over
positions 0..1 of [5,2,3]. -/
theorem seg_node_stores_fold_witness :
    ((SegTree.applyUpdates ((SegTree.ofVec [1, 2, 3]).getD dfltSeg)
        [(0, 5)]).getD dfltSeg).t 2 =
      rangeFold (applyList [1, 2, 3] [(0, 5)]) 0 1 :=
  seg_node_stores_fold [1, 2, 3] [(0, 5)]
    ((SegTree.ofVec [1, 2, 3]).getD dfltSeg)
    ((SegTree.applyUpdates ((SegTree.ofVec [1, 2, 3]).getD dfltSeg) [(0, 5)]).getD dfltSeg)
    (1 * 2) 0 (SegTree.tmOf 0 2)
    (by decide) (by decide) rfl rfl
    (ValidNode.left (ValidNode.root) (by decide))

/-- C3: on a well-formed tree (any tree representing a conceptual array of
size N ≥ 1), update(pos, x) followed by query(pos, pos) returns x. -/
theorem seg_update_then_query_point (st : SegTree) (a : List Int) (pos x : Int)
    (hm : st.models a) (h0 : 0 ≤ pos) (h1 : pos ≤ st.n - 1) :
    ∃ st1, st.update pos x = some st1 ∧ st1.query pos pos = some x := by
  have hlen : st.n = (a.length : Int) := hm.1
  obtain ⟨st1, he, hm1, hn1⟩ := update_models hm h0 h1
  refine ⟨st1, he, ?_⟩
  rw [query_models hm1 h0 le_rfl (by omega), rangeFold_single _ h0, setA,
    getD_set_self x a (by omega)]

/-- Witness for C3: on the tree over [5,7], update(1,9) then query(1,1)
returns 9. -/
theorem seg_update_then_query_point_witness :
    ∃ st1, ((SegTree.ofVec [5, 7]).getD dfltSeg).update 1 9 = some st1 ∧
      st1.query 1 1 = some 9 :=
  seg_update_then_query_point ((SegTree.ofVec [5, 7]).getD dfltSeg) [5, 7] 1 9
    (models_of_ofVec (by decide) rfl) (by decide) (by decide)

/-- C4: two updates at distinct positions compose: both positions then read
their latest values, and every other position reads the same value as
before the two updates. -/
theorem seg_updates_independent (st : SegTree) (a : List Int)
    (pos1 pos2 v1 v2 : Int)
    (hm : st.models a) (hne : pos1 ≠ pos2)
    (h10 : 0 ≤ pos1) (h11 : pos1 ≤ st.n - 1)
    (h20 : 0 ≤ pos2) (h21 : pos2 ≤ st.n - 1) :
    ∃ st1 st2, st.update pos1 v1 = some st1 ∧ st1.update pos2 v2 = some st2 ∧
      st2.query pos1 pos1 = some v1 ∧ st2.query pos2 pos2 = some v2 ∧
      ∀ q, 0 ≤ q → q ≤ st.n - 1 → q ≠ pos1 → q ≠ pos2 →
        st2.query q q = st.query q q := by
  have hlen : st.n = (a.length : Int) := hm.1
  obtain ⟨st1, he1, hm1, hn1⟩ := update_models hm h10 h11
  obtain ⟨st2, he2, hm2, hn2⟩ := update_models hm1 h20 (by omega)
  refine ⟨st1, st2, he1, he2, ?_, ?_, ?_⟩
  · rw [query_models hm2 h10 le_rfl (by omega), rangeFold_single _ h10, setA, setA,
      getD_set_ne v2 _ (by omega), getD_set_self v1 a (by omega)]
  · rw [query_models hm2 h20 le_rfl (by omega), rangeFold_single _ h20, setA, setA,
      getD_set_self v2 _ (by rw [List.length_set]; omega)]
  · intro q hq0 hq1 hqp1 hqp2
    rw [query_models hm2 hq0 le_rfl (by omega), query_models hm hq0 le_rfl hq1,
      rangeFold_single _ hq0, rangeFold_single _ hq0, setA, setA,
      getD_set_ne v2 _ (by omega), getD_set_ne v1 _ (by omega)]

/-- Witness for C4: on the tree over [1,2,3], update(0,8) then update(2,9);
query(0,0) = 8, query(2,2) = 9, and query(1,1) is unchanged. -/
theorem seg_updates_independent_witness :
    ∃ st1 st2, ((SegTree.ofVec [1, 2, 3]).getD dfltSeg).update 0 8 = some st1 ∧
      st1.update 2 9 = some st2 ∧
      st2.query 0 0 = some 8 ∧ st2.query 2 2 = some 9 ∧
      ∀ q, 0 ≤ q → q ≤ ((SegTree.ofVec [1, 2, 3]).getD dfltSeg).n - 1 →
        q ≠ 0 → q ≠ 2 →
        st2.query q q = ((SegTree.ofVec [1, 2, 3]).getD dfltSeg).query q q :=
  seg_updates_independent ((SegTree.ofVec [1, 2, 3]).getD dfltSeg) [1, 2, 3]
    0 2 8 9 (models_of_ofVec (by decide) rfl) (by decide) (by decide) (by decide)
    (by decide) (by decide)

/-- C5: `query(l, r)` with l > r returns the identity element, on any tree
state whatsoever; the empty range is answered before any bounds are used. -/
theorem seg_query_empty_range (st : SegTree) (l r : Int) (h : l > r) :
    st.query l r = some SegTree.IDENTITY := by
  rw [SegTree.query]
  simp [SegTree.query_recursive, h]

/-- Witness for C5: query(3, 1) on the tree over [1,2,3,4,5] returns the
identity element 0. -/
theorem seg_query_empty_range_witness :
    ((SegTree.ofVec [1, 2, 3, 4, 5]).getD dfltSeg).query 3 1 = some SegTree.IDENTITY :=
  seg_query_empty_range ((SegTree.ofVec [1, 2, 3, 4, 5]).getD dfltSeg) 3 1 (by decide)

/-- C9: the member call `query` is read-only and deterministic: it leaves
`n` and every stored slot unchanged, and repeating the call returns the same
result. -/
theorem seg_query_readonly (st st1 : SegTree) (l r x : Int)
    (h : st.queryOp l r = some (x, st1)) :
    st1.n = st.n ∧ st1.t = st.t ∧ st1.queryOp l r = some (x, st1) := by
  rw [SegTree.queryOp] at h
  cases hq : st.query l r with
  | none => rw [hq] at h; exact absurd h (by simp)
  | some y =>
    rw [hq] at h
    have hy : y = x := congrArg Prod.fst (Option.some.inj h)
    have hst : st = st1 := congrArg Prod.snd (Option.some.inj h)
    subst hy
    subst hst
    exact ⟨rfl, rfl, by rw [SegTree.queryOp, hq]⟩

/-- Witness for C9: a concrete query on the tree over [1,2,3] leaves the
state unchanged and repeats identically. -/
theorem seg_query_readonly_witness :
    ((SegTree.ofVec [1, 2, 3]).getD dfltSeg).n = ((SegTree.ofVec [1, 2, 3]).getD dfltSeg).n ∧
      ((SegTree.ofVec [1, 2, 3]).getD dfltSeg).t = ((SegTree.ofVec [1, 2, 3]).getD dfltSeg).t ∧
      ((SegTree.ofVec [1, 2, 3]).getD dfltSeg).queryOp 0 2 =
        some (6, (SegTree.ofVec [1, 2, 3]).getD dfltSeg) :=
  seg_query_readonly ((SegTree.ofVec [1, 2, 3]).getD dfltSeg)
    ((SegTree.ofVec [1, 2, 3]).getD dfltSeg) 0 2 6 rfl

/-- On an empty segment of the shape (k+1, k-1), the build recursion calls
itself on the same empty segment, so it exhausts any finite fuel. -/
lemma build_empty_B (a : List Int) : ∀ (fuel : Nat) (v : Nat) (k : Int) (t : Nat → Int),
    SegTree.build a fuel v (k + 1) (k - 1) t = none := by
  intro fuel
  induction fuel with
  | zero => intro v k t; rfl
  | succ fuel ih =>
    intro v k t
    have hne : ¬ (k + 1 = k - 1) := by omega
    have htm : SegTree.tmOf (k + 1) (k - 1) = k := by
      show k + 1 + (k - 1 - (k + 1)).tdiv 2 = k
      rw [show k - 1 - (k + 1) = -2 from by ring,
        show ((-2 : Int)).tdiv 2 = -1 from by decide]
      ring
    simp only [SegTree.build, if_neg hne, htm]
    cases hL : SegTree.build a fuel (v * 2) (k + 1) k t with
    | none => rfl
    | some t1 => simp [ih (v * 2 + 1) k t1]

/-- On an empty segment of the shape (k, k-1), the build recursion descends
into an empty segment of the shape (k+1, k-1) and therefore exhausts any
finite fuel. -/
lemma build_empty_A (a : List Int) : ∀ (fuel : Nat) (v : Nat) (k : Int) (t : Nat → Int),
    SegTree.build a fuel v k (k - 1) t = none := by
  intro fuel
  cases fuel with
  | zero => intro v k t; rfl
  | succ fuel =>
    intro v k t
    have hne : ¬ (k = k - 1) := by omega
    have htm : SegTree.tmOf k (k - 1) = k := by
      show k + (k - 1 - k).tdiv 2 = k
      rw [show k - 1 - k = -1 from by ring,
        show ((-1 : Int)).tdiv 2 = 0 from by decide]
      ring
    simp only [SegTree.build, if_neg hne, htm]
    cases hL : SegTree.build a fuel (v * 2) k k t with
    | none => rfl
    | some t1 => simp [build_empty_B a fuel (v * 2 + 1) k t1]

/-- C6 (documents the defect): construction from the empty array is neither
rejected nor a no-op.  With N = 0 the constructor calls build(1, 0, -1), and
that recursion never terminates: it returns no result at any finite
recursion depth (and on the way repeatedly indexes the empty vectors out of
bounds at its leaf cases). -/
theorem seg_empty_build_diverges :
    (∀ (fuel : Nat) (t0 : Nat → Int),
      SegTree.build [] fuel 1 0 ((([] : List Int).length : Int) - 1) t0 = none) ∧
    SegTree.ofVec [] = none := by
  constructor
  · intro fuel t0
    have h : ((([] : List Int).length : Int) - 1) = 0 - 1 := by norm_num
    rw [h]
    exact build_empty_A [] fuel 1 0 t0
  · rfl

/-- C7 counterexample: the claim quantifies over all representable tl ≤ tr,
but already the first intermediate tr - tl of the split-point computation
overflows the int type for tl = -1, tr = INT_MAX (both representable and
ordered), so the computation is not overflow-free for arbitrary
representable tl ≤ tr. -/
theorem tm_overflow_cex :
    intRepresentable (-1) ∧ intRepresentable INT_MAX ∧ (-1 : Int) ≤ INT_MAX ∧
      ¬ intRepresentable (INT_MAX - (-1)) := by
  unfold intRepresentable INT_MAX
  decide

/-- C7 amended: with the restriction 0 ≤ tl (which holds at every recursion
step reachable from the public API, where ranges live inside [0, n-1]), the
split point is tm = tl + (tr - tl)/2, no intermediate of its computation is
negative or exceeds tr (hence all are representable whenever tr is), tm
satisfies tl ≤ tm < tr for nondegenerate ranges, an odd-length range puts
one more element in the left half [tl, tm] than in the right half
[tm+1, tr], and an even-length range splits evenly. -/
theorem tm_no_overflow (tl tr : Int) (h0 : 0 ≤ tl) (h1 : tl ≤ tr) (h2 : tr ≤ INT_MAX) :
    SegTree.tmOf tl tr = tl + (tr - tl).tdiv 2 ∧
    (0 ≤ tr - tl ∧ tr - tl ≤ tr ∧ intRepresentable (tr - tl)) ∧
    (0 ≤ (tr - tl).tdiv 2 ∧ (tr - tl).tdiv 2 ≤ tr ∧ intRepresentable ((tr - tl).tdiv 2)) ∧
    (tl ≤ SegTree.tmOf tl tr ∧ SegTree.tmOf tl tr ≤ tr ∧
      intRepresentable (SegTree.tmOf tl tr) ∧ (tl < tr → SegTree.tmOf tl tr < tr)) ∧
    ((tr - tl) % 2 = 0 → SegTree.tmOf tl tr - tl + 1 = tr - SegTree.tmOf tl tr + 1) ∧
    ((tr - tl) % 2 ≠ 0 → SegTree.tmOf tl tr - tl + 1 = tr - SegTree.tmOf tl tr) := by
  have hd := tdiv_two_eq tl tr h1
  have hp : (2 : Int) ^ 31 = 2147483648 := by norm_num
  refine ⟨by simp [SegTree.tmOf], ?_, ?_, ?_, ?_, ?_⟩ <;>
    simp only [SegTree.tmOf, intRepresentable, INT_MAX, hd, hp] at h2 ⊢ <;> omega

/-- Witness for the amended C7 at tl = 0, tr = 5: all intermediates stay in
[0, tr], and the odd-length range [0,5] (length 6, even) splits evenly. -/
theorem tm_no_overflow_witness :
    SegTree.tmOf 0 5 = 0 + ((5 : Int) - 0).tdiv 2 ∧
    (0 ≤ (5 : Int) - 0 ∧ (5 : Int) - 0 ≤ 5 ∧ intRepresentable ((5 : Int) - 0)) ∧
    (0 ≤ ((5 : Int) - 0).tdiv 2 ∧ ((5 : Int) - 0).tdiv 2 ≤ 5 ∧
      intRepresentable (((5 : Int) - 0).tdiv 2)) ∧
    (0 ≤ SegTree.tmOf 0 5 ∧ SegTree.tmOf 0 5 ≤ 5 ∧
      intRepresentable (SegTree.tmOf 0 5) ∧ ((0 : Int) < 5 → SegTree.tmOf 0 5 < 5)) ∧
    (((5 : Int) - 0) % 2 = 0 → SegTree.tmOf 0 5 - 0 + 1 = 5 - SegTree.tmOf 0 5 + 1) ∧
    (((5 : Int) - 0) % 2 ≠ 0 → SegTree.tmOf 0 5 - 0 + 1 = 5 - SegTree.tmOf 0 5) :=
  tm_no_overflow 0 5 (by decide) (by decide) (by decide)

/-- Every node satisfying the depth invariant has slot index below 4N. -/
lemma nodeOK_lt {nn d v : Nat} {tl tr : Int} (hn : 1 ≤ nn) (h : NodeOK nn d v tl tr) :
    v < 4 * nn := by
  obtain ⟨h1, h2, h3, h4, h5⟩ := h
  cases d with
  | zero => have := h4 rfl; omega
  | succ e =>
    have h5e := h5 (by omega)
    rw [show e + 1 - 1 = e from rfl] at h5e
    have he : (2 : Nat) ^ (e + 1 + 1) = 2 ^ e * 4 := by
      rw [pow_succ, pow_succ]; ring
    omega

/-- The root of the subdivision of [0, nn-1] satisfies the depth invariant. -/
lemma nodeOK_root {nn : Nat} (hn : 1 ≤ nn) : NodeOK nn 0 1 0 ((nn : Int) - 1) := by
  refine ⟨le_rfl, by norm_num, ?_, fun _ => rfl, by omega⟩
  have : (2 : Nat) ^ 0 = 1 := pow_zero 2
  omega

/-- The left child of a nondegenerate node satisfies the depth invariant one
level deeper. -/
lemma nodeOK_left {nn d v : Nat} {tl tr : Int} (h : NodeOK nn d v tl tr) (hlt : tl < tr) :
    NodeOK nn (d + 1) (v * 2) tl (SegTree.tmOf tl tr) := by
  obtain ⟨h1, h2, h3, h4, h5⟩ := h
  have hd := tdiv_two_eq tl tr (le_of_lt hlt)
  have htm := tmOf_bounds hlt
  have hD : 1 ≤ (tr - tl).toNat := by omega
  have hx : (SegTree.tmOf tl tr - tl).toNat = (tr - tl).toNat / 2 := by
    simp only [SegTree.tmOf, hd]; omega
  have hmono : (SegTree.tmOf tl tr - tl).toNat * 2 ^ (d + 1) ≤ (tr - tl).toNat * 2 ^ d := by
    rw [hx, pow_succ]
    calc (tr - tl).toNat / 2 * (2 ^ d * 2) = (tr - tl).toNat / 2 * 2 * 2 ^ d := by ring
    _ ≤ (tr - tl).toNat * 2 ^ d := Nat.mul_le_mul_right _ (by omega)
  have hgrow : (2 : Nat) ^ d ≤ nn - 1 := by
    calc (2 : Nat) ^ d = 1 * 2 ^ d := (one_mul _).symm
    _ ≤ (tr - tl).toNat * 2 ^ d := Nat.mul_le_mul_right _ hD
    _ ≤ nn - 1 := h3
  have hpows : (2 : Nat) ^ (d + 1 + 1) = 2 ^ (d + 1) * 2 := pow_succ 2 (d + 1)
  refine ⟨by omega, by omega, by omega, by omega, ?_⟩
  intro _
  rw [show d + 1 - 1 = d from rfl]
  exact hgrow

/-- The right child of a nondegenerate node satisfies the depth invariant one
level deeper. -/
lemma nodeOK_right {nn d v : Nat} {tl tr : Int} (h : NodeOK nn d v tl tr) (hlt : tl < tr) :
    NodeOK nn (d + 1) (v * 2 + 1) (SegTree.tmOf tl tr + 1) tr := by
  obtain ⟨h1, h2, h3, h4, h5⟩ := h
  have hd := tdiv_two_eq tl tr (le_of_lt hlt)
  have htm := tmOf_bounds hlt
  have hD : 1 ≤ (tr - tl).toNat := by omega
  have hx : (tr - (SegTree.tmOf tl tr + 1)).toNat
      = (tr - tl).toNat - (tr - tl).toNat / 2 - 1 := by
    simp only [SegTree.tmOf, hd]; omega
  have hmono : (tr - (SegTree.tmOf tl tr + 1)).toNat * 2 ^ (d + 1)
      ≤ (tr - tl).toNat * 2 ^ d := by
    rw [hx, pow_succ]
    calc ((tr - tl).toNat - (tr - tl).toNat / 2 - 1) * (2 ^ d * 2)
        = ((tr - tl).toNat - (tr - tl).toNat / 2 - 1) * 2 * 2 ^ d := by ring
    _ ≤ (tr - tl).toNat * 2 ^ d := Nat.mul_le_mul_right _ (by omega)
  have hgrow : (2 : Nat) ^ d ≤ nn - 1 := by
    calc (2 : Nat) ^ d = 1 * 2 ^ d := (one_mul _).symm
    _ ≤ (tr - tl).toNat * 2 ^ d := Nat.mul_le_mul_right _ hD
    _ ≤ nn - 1 := h3
  have hpows : (2 : Nat) ^ (d + 1 + 1) = 2 ^ (d + 1) * 2 := pow_succ 2 (d + 1)
  refine ⟨by omega, by omega, by omega, by omega, ?_⟩
  intro _
  rw [show d + 1 - 1 = d from rfl]
  exact hgrow

/-- Every slot index touched by `build` over a range of the subdivision of
[0, nn-1] lies below 4 nn. -/
lemma buildNodes_bound {nn : Nat} (hn : 1 ≤ nn) :
    ∀ (fuel : Nat) {d v : Nat} {tl tr : Int},
      tl ≤ tr → NodeOK nn d v tl tr →
      ∀ w ∈ SegTree.buildNodes fuel v tl tr, w < 4 * nn := by
  intro fuel
  induction fuel with
  | zero => intro d v tl tr h1 hok w hw; simp [SegTree.buildNodes] at hw
  | succ fuel ih =>
    intro d v tl tr h1 hok w hw
    by_cases h : tl = tr
    · simp [SegTree.buildNodes, h] at hw
      exact hw ▸ nodeOK_lt hn hok
    · have hlt : tl < tr := by omega
      have htm := tmOf_bounds hlt
      have hokL := nodeOK_left hok hlt
      have hokR := nodeOK_right hok hlt
      simp only [SegTree.buildNodes, if_neg h, List.mem_append, List.mem_cons,
        List.mem_singleton, List.not_mem_nil, or_false] at hw
      rcases hw with (hw | hw) | (hw | hw | hw)
      · exact ih htm.1 hokL w hw
      · exact ih (by omega) hokR w hw
      · exact hw ▸ nodeOK_lt hn hokL
      · exact hw ▸ nodeOK_lt hn hokR
      · exact hw ▸ nodeOK_lt hn hok

/-- Every slot index touched by `query_recursive` with in-range (or empty)
query bounds lies below 4 nn. -/
lemma queryNodes_bound {nn : Nat} (hn : 1 ≤ nn) :
    ∀ (fuel : Nat) {d v : Nat} {tl tr l r : Int},
      tl ≤ tr → NodeOK nn d v tl tr →
      (r < l ∨ (tl ≤ l ∧ l ≤ r ∧ r ≤ tr)) →
      ∀ w ∈ SegTree.queryNodes fuel v tl tr l r, w < 4 * nn := by
  intro fuel
  induction fuel with
  | zero => intro d v tl tr l r h1 hok hd w hw; simp [SegTree.queryNodes] at hw
  | succ fuel ih =>
    intro d v tl tr l r h1 hok hd w hw
    rcases hd with hd | hd
    · simp [SegTree.queryNodes, hd] at hw
    · obtain ⟨hdl, hdlr, hdr⟩ := hd
      by_cases hexact : l = tl ∧ r = tr
      · obtain ⟨rfl, rfl⟩ := hexact
        have hng : ¬ l > r := by omega
        simp [SegTree.queryNodes, hng] at hw
        exact hw ▸ nodeOK_lt hn hok
      · have hlt : tl < tr := by
          rcases lt_or_eq_of_le h1 with hlt | heq
          · exact hlt
          · exact absurd ⟨by omega, by omega⟩ hexact
        have htm := tmOf_bounds hlt
        have hokL := nodeOK_left hok hlt
        have hokR := nodeOK_right hok hlt
        have hng : ¬ l > r := by omega
        simp only [SegTree.queryNodes, if_neg hng, if_neg hexact, List.mem_append] at hw
        rcases hw with hw | hw
        · refine ih htm.1 hokL ?_ w hw
          by_cases hc : min r (SegTree.tmOf tl tr) < l
          · exact Or.inl hc
          · exact Or.inr ⟨hdl, by omega, min_le_right _ _⟩
        · refine ih (by omega) hokR ?_ w hw
          by_cases hc : r < max l (SegTree.tmOf tl tr + 1)
          · exact Or.inl hc
          · exact Or.inr ⟨le_max_right _ _, by omega, hdr⟩

/-- Every slot index touched by `update_recursive` over a range of the
subdivision of [0, nn-1] lies below 4 nn. -/
lemma updateNodes_bound {nn : Nat} (hn : 1 ≤ nn) :
    ∀ (fuel : Nat) {d v : Nat} {tl tr pos : Int},
      tl ≤ tr → NodeOK nn d v tl tr →
      ∀ w ∈ SegTree.updateNodes fuel v tl tr pos, w < 4 * nn := by
  intro fuel
  induction fuel with
  | zero => intro d v tl tr pos h1 hok w hw; simp [SegTree.updateNodes] at hw
  | succ fuel ih =>
    intro d v tl tr pos h1 hok w hw
    by_cases h : tl = tr
    · simp [SegTree.updateNodes, h] at hw
      exact hw ▸ nodeOK_lt hn hok
    · have hlt : tl < tr := by omega
      have htm := tmOf_bounds hlt
      have hokL := nodeOK_left hok hlt
      have hokR := nodeOK_right hok hlt
      simp only [SegTree.updateNodes, if_neg h, List.mem_append, List.mem_cons,
        List.mem_singleton, List.not_mem_nil, or_false] at hw
      rcases hw with hw | (hw | hw | hw)
      · by_cases hbr : pos ≤ SegTree.tmOf tl tr
        · rw [if_pos hbr] at hw
          exact ih htm.1 hokL w hw
        · rw [if_neg hbr] at hw
          exact ih (by omega) hokR w hw
      · exact hw ▸ nodeOK_lt hn hokL
      · exact hw ▸ nodeOK_lt hn hokR
      · exact hw ▸ nodeOK_lt hn hok

/-- C8: for every N ≥ 1, 4N slots suffice: every slot index touched during
construction, and during any query or update with in-range arguments, is
below 4N (all indices are nonnegative by type), and all three operations
terminate normally (return a result) on such input. -/
theorem seg_four_n_slots_suffice (a : List Int) (l r pos x : Int)
    (hn : 1 ≤ a.length)
    (hl : 0 ≤ l) (hlr : l ≤ r) (hr : r ≤ (a.length : Int) - 1)
    (hp0 : 0 ≤ pos) (hp1 : pos ≤ (a.length : Int) - 1) :
    (∀ w ∈ SegTree.buildNodes a.length 1 0 ((a.length : Int) - 1), w < 4 * a.length) ∧
    (∀ w ∈ SegTree.queryNodes (a.length + 1) 1 0 ((a.length : Int) - 1) l r,
      w < 4 * a.length) ∧
    (∀ w ∈ SegTree.updateNodes (a.length + 1) 1 0 ((a.length : Int) - 1) pos,
      w < 4 * a.length) ∧
    ∃ st, SegTree.ofVec a = some st ∧ (st.query l r).isSome ∧
      (st.update pos x).isSome := by
  refine ⟨?_, ?_, ?_, ?_⟩
  · exact buildNodes_bound hn a.length (by omega) (nodeOK_root hn)
  · exact queryNodes_bound hn (a.length + 1) (by omega) (nodeOK_root hn)
      (Or.inr ⟨hl, hlr, hr⟩)
  · exact updateNodes_bound hn (a.length + 1) (by omega) (nodeOK_root hn)
  · obtain ⟨t2, he, hs, -⟩ :=
      build_ok a a.length 1 0 ((a.length : Int) - 1)
        (fun _ => 0) (by omega) (by omega) (by omega) (by omega)
    have hmk : SegTree.ofVec a = some ⟨(a.length : Int), t2⟩ := by
      rw [SegTree.ofVec, he]
    have hm := models_of_ofVec hn hmk
    refine ⟨⟨(a.length : Int), t2⟩, hmk, ?_, ?_⟩
    · rw [query_models hm hl hlr (by simpa using hr)]
      rfl
    · obtain ⟨st1, he1, -, -⟩ := update_models hm hp0 (by simpa using hp1)
      rw [he1]
      rfl

/-- Witness for C8: the array [1,2,3,4,5] with a query on [1,3] and an
update at position 2. -/
theorem seg_four_n_slots_suffice_witness :
    (∀ w ∈ SegTree.buildNodes ([1, 2, 3, 4, 5] : List Int).length 1 0
        ((([1, 2, 3, 4, 5] : List Int).length : Int) - 1),
      w < 4 * ([1, 2, 3, 4, 5] : List Int).length) ∧
    (∀ w ∈ SegTree.queryNodes (([1, 2, 3, 4, 5] : List Int).length + 1) 1 0
        ((([1, 2, 3, 4, 5] : List Int).length : Int) - 1) 1 3,
      w < 4 * ([1, 2, 3, 4, 5] : List Int).length) ∧
    (∀ w ∈ SegTree.updateNodes (([1, 2, 3, 4, 5] : List Int).length + 1) 1 0
        ((([1, 2, 3, 4, 5] : List Int).length : Int) - 1) 2,
      w < 4 * ([1, 2, 3, 4, 5] : List Int).length) ∧
    ∃ st, SegTree.ofVec [1, 2, 3, 4, 5] = some st ∧ (st.query 1 3).isSome ∧
      (st.update 2 10).isSome :=
  seg_four_n_slots_suffice [1, 2, 3, 4, 5] 1 3 2 10 (by decide) (by decide)
    (by decide) (by decide) (by decide) (by decide)

/-! DSU lemmas. -/

lemma proot_zero (p : Nat → Nat) (v : Nat) : DSU.proot p 0 v = none := rfl

lemma proot_succ (p : Nat → Nat) (fuel : Nat) (v : Nat) :
    DSU.proot p (fuel + 1) v = if v = p v then some v else DSU.proot p fuel (p v) := rfl

lemma proot_one (p : Nat → Nat) (v : Nat) :
    DSU.proot p 1 v = if v = p v then some v else none := rfl

lemma find_zero (s : DSU) (v : Nat) : DSU.find_set 0 s v = none := rfl

lemma find_succ (fuel : Nat) (s : DSU) (v : Nat) :
    DSU.find_set (fuel + 1) s v =
      if v = s.parent v then some (v, s)
      else
        match DSU.find_set fuel s (s.parent v) with
        | none => none
        | some (r, s1) => some (r, { s1 with parent := updf s1.parent v r }) := rfl

/-- The node returned by the pure root computation is a fixed point of the
parent map. -/
lemma proot_self_parent {p : Nat → Nat} : ∀ (fuel : Nat) {v r : Nat},
    DSU.proot p fuel v = some r → p r = r := by
  intro fuel
  induction fuel with
  | zero => intro v r h; rw [proot_zero] at h; exact absurd h (by simp)
  | succ fuel ih =>
    intro v r h
    rw [proot_succ] at h
    by_cases hv : v = p v
    · rw [if_pos hv] at h
      obtain rfl := Option.some.inj h
      exact hv.symm
    · rw [if_neg hv] at h
      exact ih h

/-- The pure root computation is stable under adding fuel. -/
lemma proot_mono {p : Nat → Nat} : ∀ (fuel fuel2 : Nat) {v r : Nat}, fuel ≤ fuel2 →
    DSU.proot p fuel v = some r → DSU.proot p fuel2 v = some r := by
  intro fuel
  induction fuel with
  | zero => intro fuel2 v r hle h; rw [proot_zero] at h; exact absurd h (by simp)
  | succ fuel ih =>
    intro fuel2 v r hle h
    obtain ⟨g, rfl⟩ : ∃ g, fuel2 = g + 1 := ⟨fuel2 - 1, by omega⟩
    rw [proot_succ] at h ⊢
    by_cases hv : v = p v
    · rwa [if_pos hv] at h ⊢
    · rw [if_neg hv] at h ⊢
      exact ih g (by omega) h

lemma rooted_unique {p : Nat → Nat} {v r r1 : Nat}
    (h : DSU.Rooted p v r) (h1 : DSU.Rooted p v r1) : r = r1 := by
  obtain ⟨f, hf⟩ := h
  obtain ⟨g, hg⟩ := h1
  have m1 := proot_mono f (max f g) (le_max_left f g) hf
  have m2 := proot_mono g (max f g) (le_max_right f g) hg
  rw [m1] at m2
  exact Option.some.inj m2

lemma rooted_parent_self {p : Nat → Nat} {v r : Nat} (h : DSU.Rooted p v r) : p r = r := by
  obtain ⟨f, hf⟩ := h
  exact proot_self_parent f hf

lemma rooted_self {p : Nat → Nat} {x : Nat} (h : p x = x) : DSU.Rooted p x x :=
  ⟨1, by rw [proot_one, if_pos h.symm]⟩

lemma rooted_step {p : Nat → Nat} {x c : Nat} (hne : ¬ x = p x)
    (h : DSU.Rooted p (p x) c) : DSU.Rooted p x c := by
  obtain ⟨g, hg⟩ := h
  exact ⟨g + 1, by rw [proot_succ, if_neg hne]; exact hg⟩

/-- A root found from any node is a representative of that node. -/
lemma rooted_of_proot {p : Nat → Nat} {fuel : Nat} {v r : Nat}
    (h : DSU.proot p fuel v = some r) : DSU.Rooted p v r := ⟨fuel, h⟩

lemma proot_root {p : Nat → Nat} : ∀ (fuel : Nat) {q r : Nat}, p q = q →
    DSU.proot p fuel q = some r → r = q := by
  intro fuel
  cases fuel with
  | zero => intro q r hq h; rw [proot_zero] at h; exact absurd h (by simp)
  | succ fuel =>
    intro q r hq h
    rw [proot_succ, if_pos hq.symm] at h
    exact (Option.some.inj h).symm


/-- Re-linking a node directly to its own root does not change any
representative: forward direction. -/
lemma rooted_relink_fwd {p : Nat → Nat} {u ρ : Nat} (hρ : p ρ = ρ)
    (hu : DSU.Rooted p u ρ) (hne : u ≠ ρ) :
    ∀ (fuel : Nat) {x c : Nat}, DSU.proot p fuel x = some c →
      DSU.Rooted (updf p u ρ) x c := by
  have hunr : u ≠ p u := by
    intro hpu
    exact hne (rooted_unique (rooted_self hpu.symm) hu)
  intro fuel
  induction fuel with
  | zero => intro x c h; rw [proot_zero] at h; exact absurd h (by simp)
  | succ fuel ih =>
    intro x c h
    rw [proot_succ] at h
    by_cases hx : x = p x
    · rw [if_pos hx] at h
      obtain rfl := Option.some.inj h
      have hxu : x ≠ u := fun he => hunr (he ▸ hx)
      have hfix : updf p u ρ x = x := by
        simp only [updf, if_neg hxu]
        exact hx.symm
      exact rooted_self hfix
    · rw [if_neg hx] at h
      by_cases hxu : x = u
      · have hc : c = ρ := by
          rw [← hxu] at hu
          exact rooted_unique (rooted_step hx (rooted_of_proot h)) hu
        rw [hxu, hc]
        have h1 : updf p u ρ u = ρ := by simp [updf]
        have h2 : updf p u ρ ρ = ρ := by
          simp only [updf, if_neg (Ne.symm hne)]
          exact hρ
        refine rooted_step ?_ ?_
        · rw [h1]; exact hne
        · rw [h1]; exact rooted_self h2
      · have hr := ih h
        have hpx : updf p u ρ x = p x := by simp [updf, hxu]
        refine rooted_step ?_ ?_
        · rw [hpx]; exact hx
        · rw [hpx]; exact hr

/-- Re-linking a node directly to its own root does not change any
representative: backward direction. -/
lemma rooted_relink_bwd {p : Nat → Nat} {u ρ : Nat} (hρ : p ρ = ρ)
    (hu : DSU.Rooted p u ρ) (hne : u ≠ ρ) :
    ∀ (fuel : Nat) {x c : Nat}, DSU.proot (updf p u ρ) fuel x = some c →
      DSU.Rooted p x c := by
  intro fuel
  induction fuel with
  | zero => intro x c h; rw [proot_zero] at h; exact absurd h (by simp)
  | succ fuel ih =>
    intro x c h
    rw [proot_succ] at h
    by_cases hx : x = updf p u ρ x
    · rw [if_pos hx] at h
      obtain rfl := Option.some.inj h
      have hxu : x ≠ u := by
        intro he
        rw [he, show updf p u ρ u = ρ from by simp [updf]] at hx
        exact hne (he ▸ hx)
      rw [show updf p u ρ x = p x from by simp [updf, hxu]] at hx
      exact rooted_self hx.symm
    · rw [if_neg hx] at h
      by_cases hxu : x = u
      · rw [hxu, show updf p u ρ u = ρ from by simp [updf]] at h
        have hρfix : updf p u ρ ρ = ρ := by
          simp only [updf, if_neg (Ne.symm hne)]
          exact hρ
        have hc : c = ρ := proot_root fuel hρfix h
        rw [hxu, hc]
        exact hu
      · have hpx : updf p u ρ x = p x := by simp [updf, hxu]
        rw [hpx] at h
        refine rooted_step ?_ (ih h)
        · rw [hpx] at hx
          exact hx

/-- Re-linking a node directly to its own root preserves every
representative (both directions). -/
lemma rooted_relink {p : Nat → Nat} {u ρ : Nat} (hρ : p ρ = ρ)
    (hu : DSU.Rooted p u ρ) (x c : Nat) :
    DSU.Rooted p x c ↔ DSU.Rooted (updf p u ρ) x c := by
  by_cases hne : u = ρ
  · have heq : updf p u ρ = p := by
      funext w
      by_cases hw : w = u
      · rw [hw]
        have hpu : p u = ρ := by rw [hne, hρ]
        simp [updf, hpu]
      · simp [updf, hw]
    rw [heq]
  · constructor
    · rintro ⟨f, hf⟩
      exact rooted_relink_fwd hρ hu hne f hf
    · rintro ⟨f, hf⟩
      exact rooted_relink_bwd hρ hu hne f hf

/-- Specification of `find_set`: it returns the representative of its
argument (the root along the original parent chain), leaves the size vector
unchanged, and preserves every representative (path compression only
re-links nodes to their own root). -/
lemma find_spec : ∀ (fuel : Nat) {s : DSU} {v r : Nat} {s1 : DSU},
    DSU.find_set fuel s v = some (r, s1) →
    DSU.proot s.parent fuel v = some r ∧ s1.sz = s.sz ∧
      (∀ x c, DSU.Rooted s.parent x c ↔ DSU.Rooted s1.parent x c) := by
  intro fuel
  induction fuel with
  | zero => intro s v r s1 h; rw [find_zero] at h; exact absurd h (by simp)
  | succ fuel ih =>
    intro s v r s1 h
    rw [find_succ] at h
    by_cases hv : v = s.parent v
    · rw [if_pos hv] at h
      have hinj := Option.some.inj h
      have hr : v = r := congrArg Prod.fst hinj
      have hs : s = s1 := congrArg Prod.snd hinj
      subst hr
      subst hs
      refine ⟨?_, rfl, fun x c => Iff.rfl⟩
      rw [proot_succ, if_pos hv]
    · rw [if_neg hv] at h
      cases hrec : DSU.find_set fuel s (s.parent v) with
      | none => rw [hrec] at h; exact absurd h (by simp)
      | some pr =>
        obtain ⟨r2, s2⟩ := pr
        rw [hrec] at h
        have hinj := Option.some.inj h
        have hr : r2 = r := congrArg Prod.fst hinj
        subst hr
        have hs : ({ s2 with parent := updf s2.parent v r2 } : DSU) = s1 :=
          congrArg Prod.snd hinj
        obtain ⟨hp, hsz, hiff⟩ := ih hrec
        have hroot_s : s.parent r2 = r2 := proot_self_parent fuel hp
        have hroot_s2 : s2.parent r2 = r2 :=
          rooted_parent_self ((hiff r2 r2).mp (rooted_self hroot_s))
        have hv_s2 : DSU.Rooted s2.parent v r2 :=
          (hiff v r2).mp (rooted_step hv (rooted_of_proot hp))
        refine ⟨?_, ?_, ?_⟩
        · rw [proot_succ, if_neg hv]
          exact hp
        · rw [← hs]
          exact hsz
        · intro x c
          rw [hiff x c, ← hs]
          exact rooted_relink hroot_s2 hv_s2 x c

/-- Whenever the pure root computation succeeds, `find_set` succeeds with the
same fuel and returns the same representative. -/
lemma find_of_proot : ∀ (fuel : Nat) (s : DSU) {v r : Nat},
    DSU.proot s.parent fuel v = some r →
    ∃ s1, DSU.find_set fuel s v = some (r, s1) := by
  intro fuel
  induction fuel with
  | zero => intro s v r h; rw [proot_zero] at h; exact absurd h (by simp)
  | succ fuel ih =>
    intro s v r h
    rw [proot_succ] at h
    by_cases hv : v = s.parent v
    · rw [if_pos hv] at h
      obtain rfl := Option.some.inj h
      exact ⟨s, by rw [find_succ, if_pos hv]⟩
    · rw [if_neg hv] at h
      obtain ⟨s2, hs2⟩ := ih s h
      refine ⟨{ s2 with parent := updf s2.parent v r }, ?_⟩
      rw [find_succ, if_neg hv, hs2]

/-- Re-linking a root `rb` below another node leaves the representative of
every element whose root is not `rb` unchanged. -/
lemma rooted_relink_other {p : Nat → Nat} {rb ra : Nat} (hrb : p rb = rb) :
    ∀ (fuel : Nat) {x c : Nat}, DSU.proot p fuel x = some c → c ≠ rb →
      DSU.Rooted (updf p rb ra) x c := by
  intro fuel
  induction fuel with
  | zero => intro x c h; rw [proot_zero] at h; exact absurd h (by simp)
  | succ fuel ih =>
    intro x c h hc
    rw [proot_succ] at h
    by_cases hx : x = p x
    · rw [if_pos hx] at h
      obtain rfl := Option.some.inj h
      have hfix : updf p rb ra x = x := by
        simp only [updf, if_neg hc]
        exact hx.symm
      exact rooted_self hfix
    · rw [if_neg hx] at h
      have hxr : x ≠ rb := by
        intro he
        rw [he, hrb] at hx
        exact hx rfl
      have hpx : updf p rb ra x = p x := by simp [updf, hxr]
      refine rooted_step ?_ ?_
      · rw [hpx]; exact hx
      · rw [hpx]; exact ih h hc

/-- After re-linking a root `rb` below another root `ra`, every element whose
root was `rb` has representative `ra`. -/
lemma rooted_relink_to {p : Nat → Nat} {rb ra : Nat} (hrb : p rb = rb)
    (hra : p ra = ra) (hne : ra ≠ rb) :
    ∀ (fuel : Nat) {x : Nat}, DSU.proot p fuel x = some rb →
      DSU.Rooted (updf p rb ra) x ra := by
  intro fuel
  induction fuel with
  | zero => intro x h; rw [proot_zero] at h; exact absurd h (by simp)
  | succ fuel ih =>
    intro x h
    rw [proot_succ] at h
    by_cases hx : x = p x
    · rw [if_pos hx] at h
      obtain rfl : x = rb := Option.some.inj h
      have h1 : updf p x ra x = ra := by simp [updf]
      have h2 : updf p x ra ra = ra := by
        simp only [updf, if_neg hne]
        exact hra
      refine rooted_step ?_ ?_
      · rw [h1]
        intro he
        exact hne he.symm
      · rw [h1]
        exact rooted_self h2
    · rw [if_neg hx] at h
      have hxr : x ≠ rb := by
        intro he
        rw [he, hrb] at hx
        exact hx rfl
      have hpx : updf p rb ra x = p x := by simp [updf, hxr]
      refine rooted_step ?_ ?_
      · rw [hpx]; exact hx
      · rw [hpx]; exact ih h

/-- When two elements have the same representative, calling `find_set` on
the first and then on the second returns that representative twice. -/
lemma sameRoot_finds {s : DSU} {a b ρ : Nat}
    (hA : DSU.Rooted s.parent a ρ) (hB : DSU.Rooted s.parent b ρ) :
    ∃ f1 f2 sa sb, DSU.find_set f1 s a = some (ρ, sa) ∧
      DSU.find_set f2 sa b = some (ρ, sb) := by
  obtain ⟨f1, hf1⟩ := hA
  obtain ⟨sa, hsa⟩ := find_of_proot f1 s hf1
  obtain ⟨-, -, hiff⟩ := find_spec f1 hsa
  obtain ⟨f2, hf2⟩ := (hiff b ρ).mp hB
  obtain ⟨sb, hsb⟩ := find_of_proot f2 sa hf2
  exact ⟨f1, f2, sa, sb, hsa, hsb⟩

/-- C10: immediately after `union_sets(a, b)` succeeds, `find_set(a)` and
then `find_set(b)` return the same representative; and `find_set` never
changes the partition: every element keeps its representative across any
`find_set` call (path compression only re-links nodes to their own root),
hence two elements are in the same set before the call exactly when they are
after it. -/
theorem dsu_union_find (s : DSU) (a b : Nat) (fuel : Nat) (s2 : DSU)
    (h : DSU.union_sets fuel s a b = some s2) :
    (∃ f1 f2 ρ sa sb, DSU.find_set f1 s2 a = some (ρ, sa) ∧
      DSU.find_set f2 sa b = some (ρ, sb)) ∧
    (∀ (s0 : DSU) (fuel0 : Nat) (v r : Nat) (s1 : DSU),
      DSU.find_set fuel0 s0 v = some (r, s1) →
      (∀ x c, DSU.Rooted s0.parent x c ↔ DSU.Rooted s1.parent x c) ∧
      (∀ x y, DSU.SameSet s0.parent x y ↔ DSU.SameSet s1.parent x y)) := by
  constructor
  · rw [DSU.union_sets] at h
    cases hfa : DSU.find_set fuel s a with
    | none => rw [hfa] at h; exact absurd h (by simp)
    | some pra =>
      obtain ⟨ra, s1⟩ := pra
      rw [hfa] at h
      dsimp only at h
      cases hfb : DSU.find_set fuel s1 b with
      | none => rw [hfb] at h; exact absurd h (by simp)
      | some prb =>
        obtain ⟨rb, s3⟩ := prb
        rw [hfb] at h
        dsimp only at h
        obtain ⟨hpa, hsza, hiffa⟩ := find_spec fuel hfa
        obtain ⟨hpb, hszb, hiffb⟩ := find_spec fuel hfb
        have hra_root_s : s.parent ra = ra := proot_self_parent fuel hpa
        have hrb_root_s1 : s1.parent rb = rb := proot_self_parent fuel hpb
        have hra_root : s3.parent ra = ra :=
          rooted_parent_self ((hiffb ra ra).mp ((hiffa ra ra).mp (rooted_self hra_root_s)))
        have hrb_root : s3.parent rb = rb :=
          rooted_parent_self ((hiffb rb rb).mp (rooted_self hrb_root_s1))
        have hA : DSU.Rooted s3.parent a ra :=
          (hiffb a ra).mp ((hiffa a ra).mp (rooted_of_proot hpa))
        have hB : DSU.Rooted s3.parent b rb :=
          (hiffb b rb).mp (rooted_of_proot hpb)
        by_cases hab : ra ≠ rb
        · rw [if_pos hab] at h
          by_cases hsz : s3.sz ra < s3.sz rb
          · rw [if_pos hsz] at h
            obtain rfl := Option.some.inj h
            have hAa : DSU.Rooted (updf s3.parent ra rb) a rb := by
              obtain ⟨f, hf⟩ := hA
              exact rooted_relink_to hra_root hrb_root (Ne.symm hab) f hf
            have hBb : DSU.Rooted (updf s3.parent ra rb) b rb := by
              obtain ⟨f, hf⟩ := hB
              exact rooted_relink_other hra_root f hf (Ne.symm hab)
            obtain ⟨f1, f2, sa, sb, h1, h2⟩ :=
              sameRoot_finds
                (s := { s3 with parent := updf s3.parent ra rb,
                                sz := updf s3.sz rb (s3.sz rb + s3.sz ra) }) hAa hBb
            exact ⟨f1, f2, rb, sa, sb, h1, h2⟩
          · rw [if_neg hsz] at h
            obtain rfl := Option.some.inj h
            have hBa : DSU.Rooted (updf s3.parent rb ra) b ra := by
              obtain ⟨f, hf⟩ := hB
              exact rooted_relink_to hrb_root hra_root hab f hf
            have hAa : DSU.Rooted (updf s3.parent rb ra) a ra := by
              obtain ⟨f, hf⟩ := hA
              exact rooted_relink_other hrb_root f hf hab
            obtain ⟨f1, f2, sa, sb, h1, h2⟩ :=
              sameRoot_finds
                (s := { s3 with parent := updf s3.parent rb ra,
                                sz := updf s3.sz ra (s3.sz ra + s3.sz rb) }) hAa hBa
            exact ⟨f1, f2, ra, sa, sb, h1, h2⟩
        · rw [if_neg hab] at h
          obtain rfl := Option.some.inj h
          have hre : ra = rb := not_ne_iff.mp hab
          have hB1 : DSU.Rooted s3.parent b ra := by rw [hre]; exact hB
          obtain ⟨f1, f2, sa, sb, h1, h2⟩ := sameRoot_finds (s := s3) hA hB1
          exact ⟨f1, f2, ra, sa, sb, h1, h2⟩
  · intro s0 fuel0 v r s1 hf
    obtain ⟨-, -, hiff⟩ := find_spec fuel0 hf
    refine ⟨hiff, fun x y => ?_⟩
    constructor
    · rintro ⟨ρ0, h1, h2⟩
      exact ⟨ρ0, (hiff x ρ0).mp h1, (hiff y ρ0).mp h2⟩
    · rintro ⟨ρ0, h1, h2⟩
      exact ⟨ρ0, (hiff x ρ0).mpr h1, (hiff y ρ0).mpr h2⟩

/-- Witness for C10: union(0, 1) on a fresh two-element structure; both
subsequent finds return the common representative. -/
theorem dsu_union_find_witness :
    (∃ f1 f2 ρ sa sb,
      DSU.find_set f1 ((DSU.union_sets 1 (DSU.make 2) 0 1).getD (DSU.make 2)) 0 =
        some (ρ, sa) ∧
      DSU.find_set f2 sa 1 = some (ρ, sb)) ∧
    (∀ (s0 : DSU) (fuel0 : Nat) (v r : Nat) (s1 : DSU),
      DSU.find_set fuel0 s0 v = some (r, s1) →
      (∀ x c, DSU.Rooted s0.parent x c ↔ DSU.Rooted s1.parent x c) ∧
      (∀ x y, DSU.SameSet s0.parent x y ↔ DSU.SameSet s1.parent x y)) :=
  dsu_union_find (DSU.make 2) 0 1 1
    ((DSU.union_sets 1 (DSU.make 2) 0 1).getD (DSU.make 2)) rfl
